import Mathlib

/-!
Verification of the ordered, commented key/value metadata container
(`lsst::daf::base::PropertyList`).  The repository's surviving source is the
interface header `include/lsst/daf/base/PropertyList.h` (declarations only);
the operations themselves are modelled from the specification, as noted on
each definition.
-/

namespace DafBase

/-- The two error kinds of the data layer (spec section 7). -/
inductive Error where
  | NotFound
  | TypeMismatch
  deriving DecidableEq, Repr

/-- The closed set of scalar kinds (spec section 3); representatives of the
boolean / integer / string families. -/
inductive Kind where
  | kBool
  | kInt
  | kString
  deriving DecidableEq, Repr

/-- A type-erased scalar value: a tagged union over the scalar kinds
(spec section 3, reimplementation of the `boost::any` storage as a closed
tagged variant per section 9). -/
inductive Scalar where
  | b (x : Bool)
  | i (x : Int)
  | s (x : String)
  deriving DecidableEq, Repr

/-- The kind tag of a scalar value. -/
def Scalar.kind : Scalar → Kind
  | .b _ => .kBool
  | .i _ => .kInt
  | .s _ => .kString

/-- Association-list lookup: the value stored under key `k`, if any. -/
def alookup {α : Type} (k : String) : List (String × α) → Option α
  | [] => none
  | (k2, v) :: rest => if k2 = k then some v else alookup k rest

/-- Association-list update: replace the binding of `k` (first occurrence)
or append a fresh binding. -/
def aset {α : Type} (k : String) (v : α) : List (String × α) → List (String × α)
  | [] => [(k, v)]
  | (k2, v2) :: rest => if k2 = k then (k2, v) :: rest else (k2, v2) :: aset k v rest

/-- Association-list deletion of every binding of `k`. -/
def aremove {α : Type} (k : String) : List (String × α) → List (String × α)
  | [] => []
  | (k2, v2) :: rest => if k2 = k then aremove k rest else (k2, v2) :: aremove k rest

/-- The keys of an association list. -/
def akeys {α : Type} (l : List (String × α)) : List String := l.map Prod.fst

/-- Modelled from the spec: the ordered, commented container
(`PropertyList`, the `OrderedCommentedList` layer over the
`TypedValueStore` base layer; implementation file missing, only
`PropertyList.h` declarations survive).  `store` maps each key to its
homogeneous array of values (a scalar is a one-element array), `order` is
the explicit key-order list (`_order` in the header), `comments` the
key-to-comment map (`_comments` in the header). -/
structure PropertyList where
  store : List (String × List Scalar)
  order : List String
  comments : List (String × String)
  deriving DecidableEq, Repr

/-- The empty container. -/
def emptyPL : PropertyList := ⟨[], [], []⟩

/-- Modelled from the spec: `getOrderedNames()` returns `order` verbatim
(a defensive copy). -/
def PropertyList.getOrderedNames (pl : PropertyList) : List String := pl.order

/-- Modelled from the spec: `getComment(key)` returns the comment for `key`,
or the empty sentinel if none recorded; fails with `NotFound` if `key` is
absent from `order`. -/
def PropertyList.getComment (pl : PropertyList) (k : String) : Except Error String :=
  if k ∈ pl.order then .ok ((alookup k pl.comments).getD "") else .error .NotFound

/-- Modelled from the spec: `set(key, values[, comment])`, the common core of
the `set` overloads (implementation missing).  Replaces any existing entry at
`key` with `vs`; a brand-new key is appended to `order`, an existing key keeps
its position; a supplied comment replaces the stored one, an omitted comment
leaves any existing comment untouched. -/
def PropertyList.setValues (pl : PropertyList) (k : String) (vs : List Scalar)
    (c : Option String) : PropertyList :=
  { store := aset k vs pl.store
    order := if k ∈ pl.order then pl.order else pl.order ++ [k]
    comments :=
      match c with
      | none => pl.comments
      | some str => aset k str pl.comments }

/-- Modelled from the spec: scalar `set(key, value[, comment])`
(a scalar is stored as a one-element array). -/
def PropertyList.setScalar (pl : PropertyList) (k : String) (v : Scalar)
    (c : Option String) : PropertyList :=
  pl.setValues k [v] c

/-- Whether the values `vs` may be appended to an existing array `old`:
every new value's kind must match the array's element type. -/
def kindsCompat (old vs : List Scalar) : Bool :=
  match old with
  | [] => true
  | w :: _ => vs.all (fun v => v.kind == w.kind)

/-- Modelled from the spec: `add(key, values[, comment])`, the common core of
the `add` overloads (implementation missing).  Appends to the existing array
at `key` (the new values' type must match the array's element type, else
`TypeMismatch`), or creates a new entry appended to `order` if `key` is new.
A supplied comment replaces the stored comment even on an existing key; an
omitted comment leaves it untouched. -/
def PropertyList.addValues (pl : PropertyList) (k : String) (vs : List Scalar)
    (c : Option String) : Except Error PropertyList :=
  let newComments :=
    match c with
    | none => pl.comments
    | some str => aset k str pl.comments
  match alookup k pl.store with
  | none =>
      .ok { store := aset k vs pl.store
            order := pl.order ++ [k]
            comments := newComments }
  | some old =>
      if kindsCompat old vs then
        .ok { store := aset k (old ++ vs) pl.store
              order := pl.order
              comments := newComments }
      else
        .error .TypeMismatch

/-- Modelled from the spec: scalar `add(key, value[, comment])`. -/
def PropertyList.addScalar (pl : PropertyList) (k : String) (v : Scalar)
    (c : Option String) : Except Error PropertyList :=
  pl.addValues k [v] c

/-- Modelled from the spec: `get<T>(key)` returns the single scalar value
stored at `key` (the last value of the array), requiring the stored type to
match the requested kind exactly; `TypeMismatch` if the stored kind differs,
`NotFound` if `key` is absent. -/
def PropertyList.get (pl : PropertyList) (kd : Kind) (k : String) : Except Error Scalar :=
  match alookup k pl.store with
  | none => .error .NotFound
  | some vs =>
      match vs.getLast? with
      | none => .error .NotFound
      | some v => if v.kind = kd then .ok v else .error .TypeMismatch

/-- Modelled from the spec: the two-argument `get<T>(key, defaultValue)`
overload: returns the provided default if the name does not exist; a type
mismatch still fails. -/
def PropertyList.getD (pl : PropertyList) (kd : Kind) (k : String) (d : Scalar) :
    Except Error Scalar :=
  match alookup k pl.store with
  | none => .ok d
  | some vs =>
      match vs.getLast? with
      | none => .error .NotFound
      | some v => if v.kind = kd then .ok v else .error .TypeMismatch

/-- Modelled from the spec: `getArray<T>(key)` returns the full array for
`key` (a one-element sequence for a scalar-valued key); `NotFound` if absent,
`TypeMismatch` if the stored element type differs from the requested kind. -/
def PropertyList.getArray (pl : PropertyList) (kd : Kind) (k : String) :
    Except Error (List Scalar) :=
  match alookup k pl.store with
  | none => .error .NotFound
  | some vs =>
      if vs.all (fun v => v.kind == kd) then .ok vs else .error .TypeMismatch

/-- Modelled from the spec: `remove(key)` deletes the key from `store`,
`order` and `comments` together; a no-op if absent (idempotent delete). -/
def PropertyList.remove (pl : PropertyList) (k : String) : PropertyList :=
  { store := aremove k pl.store
    order := pl.order.filter (fun x => x ≠ k)
    comments := aremove k pl.comments }

/-- The dotted-path key of a flattened child entry: the target key, a dot,
then the child's own key. -/
def prefKey (root p : String) : String := root ++ "." ++ p

/-- Modelled from the spec: `set(key, value)` where the value is itself a
container (implementation missing).  The nested container is flattened: each
of its keys, taken in its own order, is set under the dotted prefixed key via
the ordinary `set` semantics, carrying its own comment when it has one; no
nested-container value is retained as an opaque single value. -/
def PropertyList.setPropertyList (pl : PropertyList) (k : String)
    (sub : PropertyList) : PropertyList :=
  sub.order.foldl
    (fun acc p =>
      acc.setValues (prefKey k p) ((alookup p sub.store).getD []) (alookup p sub.comments))
    pl

/-- The flattening fold of `setPropertyList`, generalized over the list of
child keys still to process (for reasoning by induction). -/
def flattenFold (sub : PropertyList) (root : String) (l : List String)
    (acc : PropertyList) : PropertyList :=
  l.foldl
    (fun acc2 p =>
      acc2.setValues (prefKey root p) ((alookup p sub.store).getD []) (alookup p sub.comments))
    acc

/-- Modelled from the spec: one step of the ordered `combine`: merge the
source container's entry for key `p` into `pl` with `add` semantics, the
source's comment for `p` propagating when present. -/
def PropertyList.combineOne (pl src : PropertyList) (p : String) :
    Except Error PropertyList :=
  match alookup p src.store with
  | none => .ok pl
  | some vs => pl.addValues p vs (alookup p src.comments)

/-- The ordered `combine` folded over an explicit list of source keys. -/
def PropertyList.combineList (pl src : PropertyList) :
    List String → Except Error PropertyList
  | [] => .ok pl
  | p :: rest =>
      match pl.combineOne src p with
      | .ok pl1 => pl1.combineList src rest
      | .error e => .error e

/-- Modelled from the spec: `combine(other)` for an order-aware source
(implementation missing): merges the other container's entries in the other
container's order, using `add` semantics per entry, per-entry comments
propagating. -/
def PropertyList.combine (pl src : PropertyList) : Except Error PropertyList :=
  pl.combineList src src.order

/-- A single mutation call of the public surface, for stating properties of
call sequences: a scalar `set` or `add`, with an optional comment. -/
inductive Op where
  | setOp (k : String) (v : Scalar) (c : Option String)
  | addOp (k : String) (v : Scalar) (c : Option String)
  deriving DecidableEq, Repr

/-- The key an operation addresses. -/
def Op.key : Op → String
  | .setOp k _ _ => k
  | .addOp k _ _ => k

/-- Apply a single call to a container (`add` may fail with
`TypeMismatch`). -/
def applyOp (pl : PropertyList) : Op → Except Error PropertyList
  | .setOp k v c => .ok (pl.setScalar k v c)
  | .addOp k v c => pl.addScalar k v c

/-- Apply a sequence of calls left to right, stopping at the first error. -/
def applyOps (pl : PropertyList) : List Op → Except Error PropertyList
  | [] => .ok pl
  | o :: rest =>
      match applyOp pl o with
      | .ok pl1 => applyOps pl1 rest
      | .error e => .error e

/-! ### A heap of containers, for the deep-copy independence property

Sharing of mutable state between container objects is modelled explicitly: a
heap holds the data of every live container, a container object is an index
into it, and every mutation goes through the heap.  `deepCopy` allocating a
fresh slot (rather than returning the original index) is exactly the "shares
no mutable state" contract of the spec. -/

/-- The container data held at position `i` of a heap slot list
(the empty container past the end). -/
def nthPL : List PropertyList → Nat → PropertyList
  | [], _ => emptyPL
  | c :: _, 0 => c
  | _ :: rest, n + 1 => nthPL rest n

/-- Overwrite position `i` of a heap slot list (out of range: unchanged). -/
def setNth : List PropertyList → Nat → PropertyList → List PropertyList
  | [], _, _ => []
  | _ :: rest, 0, c => c :: rest
  | c0 :: rest, n + 1, c => c0 :: setNth rest n c

/-- A heap of live containers; a container object is an index into it. -/
structure Heap where
  containers : List PropertyList
  deriving DecidableEq, Repr

/-- The data of the container object `i`. -/
def Heap.get (h : Heap) (i : Nat) : PropertyList := nthPL h.containers i

/-- Modelled from the spec: `deepCopy()` (implementation missing) duplicates
`store`, `order` and `comments` into a fresh object sharing no mutable state
with the original: a new slot is allocated holding a full copy of the data,
and its index is returned. -/
def Heap.deepCopy (h : Heap) (i : Nat) : Heap × Nat :=
  (⟨h.containers ++ [h.get i]⟩, h.containers.length)

/-- Apply an arbitrary in-place mutation to the container object `i`. -/
def Heap.mutateAt (h : Heap) (i : Nat) (f : PropertyList → PropertyList) : Heap :=
  ⟨setNth h.containers i (f (h.get i))⟩

/-- Store/order coherence (invariant I1 of the spec): a key has an entry in
the value store exactly when it occurs in the order list. -/
def Coh (pl : PropertyList) : Prop :=
  ∀ k, (alookup k pl.store).isSome = true ↔ k ∈ pl.order

/-! ### Concrete containers used to instantiate the theorems -/

/-- A container holding one integer under key `k`. -/
def plOneInt : PropertyList := ⟨[("k", [Scalar.i 0])], ["k"], []⟩

/-- A container holding one string under key `k` (for the type-mismatch
instances). -/
def plOneStr : PropertyList := ⟨[("k", [Scalar.s "x"])], ["k"], []⟩

/-- A container with a scalar-valued key and an array-valued key. -/
def plScalarArr : PropertyList :=
  ⟨[("k", [Scalar.i 5]), ("arr", [Scalar.s "g", Scalar.s "r"])], ["k", "arr"], []⟩

/-- The state after `add("k", 1, "c1")` on an empty container. -/
def plAfterAdd1 : PropertyList := ⟨[("k", [Scalar.i 1])], ["k"], [("k", "c1")]⟩

/-- The state after a further `add("k", 2, "c2")`. -/
def plAfterAdd2 : PropertyList :=
  ⟨[("k", [Scalar.i 1, Scalar.i 2])], ["k"], [("k", "c2")]⟩

/-- A nested container with entries `a` (value 1, comment `ca`) and `b`
(value 2, no comment), in that order. -/
def plNested : PropertyList :=
  ⟨[("a", [Scalar.i 1]), ("b", [Scalar.i 2])], ["a", "b"], [("a", "ca")]⟩

/-- A target container that already holds the key `root.b`. -/
def plTargetClash : PropertyList := ⟨[("root.b", [Scalar.i 2])], ["root.b"], []⟩

/-- A combine target with keys `p` and `q`. -/
def plTgtPQ : PropertyList :=
  ⟨[("p", [Scalar.i 1]), ("q", [Scalar.s "x"])], ["p", "q"], []⟩

/-- A combine source with keys `q` (comment `cq`) and `r`. -/
def plSrcQR : PropertyList :=
  ⟨[("q", [Scalar.s "y"]), ("r", [Scalar.b true])], ["q", "r"], [("q", "cq")]⟩

/-- The merge of `plSrcQR` into `plTgtPQ`. -/
def plCombined : PropertyList :=
  ⟨[("p", [Scalar.i 1]), ("q", [Scalar.s "x", Scalar.s "y"]), ("r", [Scalar.b true])],
   ["p", "q", "r"], [("q", "cq")]⟩

/-- A one-slot heap holding a single container. -/
def heapOne : Heap := ⟨[⟨[("a", [Scalar.i 1])], ["a"], []⟩]⟩

/-! ### Basic lemmas about the association-list primitives -/

theorem alookup_aset_self {α : Type} (k : String) (v : α) (l : List (String × α)) :
    alookup k (aset k v l) = some v := by
  induction l with
  | nil => simp [aset, alookup]
  | cons hd tl ih =>
      obtain ⟨k2, v2⟩ := hd
      by_cases h : k2 = k
      · simp [aset, alookup, h]
      · simp [aset, alookup, h, ih]

theorem alookup_aset_ne {α : Type} {k k2 : String} (h : k2 ≠ k) (v : α)
    (l : List (String × α)) : alookup k (aset k2 v l) = alookup k l := by
  induction l with
  | nil => simp [aset, alookup, h]
  | cons hd tl ih =>
      obtain ⟨k3, v3⟩ := hd
      by_cases h3 : k3 = k2
      · subst h3
        simp [aset, alookup, h]
      · by_cases h4 : k3 = k
        · simp [aset, alookup, h3, h4, Ne.symm h]
        · simp [aset, alookup, h3, h4, ih]

theorem alookup_aremove_self {α : Type} (k : String) (l : List (String × α)) :
    alookup k (aremove k l) = none := by
  induction l with
  | nil => simp [aremove, alookup]
  | cons hd tl ih =>
      obtain ⟨k2, v2⟩ := hd
      by_cases h : k2 = k
      · simp [aremove, h, ih]
      · simp [aremove, alookup, h, ih]

theorem alookup_eq_none_of_not_mem_akeys {α : Type} {k : String}
    {l : List (String × α)} (h : k ∉ akeys l) : alookup k l = none := by
  induction l with
  | nil => simp [alookup]
  | cons hd tl ih =>
      obtain ⟨k2, v2⟩ := hd
      simp only [akeys, List.map_cons, List.mem_cons] at h
      push_neg at h
      simp [alookup, Ne.symm h.1, ih (by simpa [akeys] using h.2)]

theorem isSome_alookup_iff_mem_akeys {α : Type} (k : String) (l : List (String × α)) :
    (alookup k l).isSome = true ↔ k ∈ akeys l := by
  induction l with
  | nil => simp [alookup, akeys]
  | cons hd tl ih =>
      obtain ⟨k2, v2⟩ := hd
      by_cases h : k2 = k
      · simp [alookup, akeys, h]
      · simp [alookup, akeys, h, ih, Ne.symm h]

/-! ### Basic lemmas about heap indexing -/

theorem nthPL_append_left (l l2 : List PropertyList) (i : Nat)
    (h : i < l.length) : nthPL (l ++ l2) i = nthPL l i := by
  induction l generalizing i with
  | nil => simp at h
  | cons c rest ih =>
      cases i with
      | zero => simp [nthPL]
      | succ n =>
          simp only [List.cons_append, nthPL]
          exact ih n (by simpa using h)

theorem nthPL_append_length (l : List PropertyList) (c : PropertyList) :
    nthPL (l ++ [c]) l.length = c := by
  induction l with
  | nil => simp [nthPL]
  | cons c0 rest ih => simpa [nthPL] using ih

theorem setNth_append_length (l : List PropertyList) (c c2 : PropertyList) :
    setNth (l ++ [c]) l.length c2 = l ++ [c2] := by
  induction l with
  | nil => simp [setNth]
  | cons c0 rest ih => simpa [setNth] using ih

theorem setNth_append_left (l l2 : List PropertyList) (i : Nat)
    (h : i < l.length) (c : PropertyList) :
    setNth (l ++ l2) i c = setNth l i c ++ l2 := by
  induction l generalizing i with
  | nil => simp at h
  | cons c0 rest ih =>
      cases i with
      | zero => simp [setNth]
      | succ n =>
          simp only [List.cons_append, setNth, List.cons.injEq, true_and]
          exact ih n (by simpa using h)

theorem length_setNth (l : List PropertyList) (i : Nat) (c : PropertyList) :
    (setNth l i c).length = l.length := by
  induction l generalizing i with
  | nil => simp [setNth]
  | cons c0 rest ih =>
      cases i with
      | zero => simp [setNth]
      | succ n => simp [setNth, ih]

/-! ### Lemmas about `set` -/

theorem setValues_order_of_mem (pl : PropertyList) {k : String} (h : k ∈ pl.order)
    (vs : List Scalar) (c : Option String) : (pl.setValues k vs c).order = pl.order := by
  simp [PropertyList.setValues, h]

theorem mem_setValues_order_self (pl : PropertyList) (k : String)
    (vs : List Scalar) (c : Option String) : k ∈ (pl.setValues k vs c).order := by
  by_cases h : k ∈ pl.order <;> simp [PropertyList.setValues, h]

/-! ### Lemmas about `add` -/

theorem addValues_ok_facts {pl pl2 : PropertyList} {k : String} {vs : List Scalar}
    {str : String} (h : pl.addValues k vs (some str) = .ok pl2) :
    pl2.comments = aset k str pl.comments ∧
    (pl2.order = pl.order ∨ pl2.order = pl.order ++ [k]) ∧
    (alookup k pl.store = none → pl2.order = pl.order ++ [k]) := by
  unfold PropertyList.addValues at h
  cases hl : alookup k pl.store with
  | none =>
      simp only [hl, Except.ok.injEq] at h
      subst h
      exact ⟨rfl, Or.inr rfl, fun _ => rfl⟩
  | some old =>
      by_cases hc : kindsCompat old vs
      · simp only [hl, hc, if_true, Except.ok.injEq] at h
        subst h
        exact ⟨rfl, Or.inl rfl, fun hh => Option.noConfusion hh⟩
      · simp [hl, hc] at h

/-! ### Claim theorems -/

/-- C1: for every container and key `k` already present in it, `set(k, v1)`
followed by `set(k, v2)` leaves `getOrderedNames()` — and in particular the
position of `k` in it — unchanged. -/
theorem set_set_preserves_position (pl : PropertyList) (k : String) (v1 v2 : Scalar)
    (hk : k ∈ pl.order) :
    ((pl.setScalar k v1 none).setScalar k v2 none).getOrderedNames
        = pl.getOrderedNames ∧
    List.indexOf k (((pl.setScalar k v1 none).setScalar k v2 none).getOrderedNames)
        = List.indexOf k pl.getOrderedNames := by
  have h1 : (pl.setScalar k v1 none).order = pl.order :=
    setValues_order_of_mem pl hk [v1] none
  have hk1 : k ∈ (pl.setScalar k v1 none).order := by rw [h1]; exact hk
  have h2 : ((pl.setScalar k v1 none).setScalar k v2 none).order
      = (pl.setScalar k v1 none).order :=
    setValues_order_of_mem _ hk1 [v2] none
  constructor
  · simp [PropertyList.getOrderedNames, h2, h1]
  · simp [PropertyList.getOrderedNames, h2, h1]

/-- Witness for C1 at a concrete container holding key `k`. -/
theorem set_set_preserves_position_witness :
    ((plOneInt.setScalar "k" (Scalar.i 1) none).setScalar "k" (Scalar.i 2) none).getOrderedNames
        = plOneInt.getOrderedNames ∧
    List.indexOf "k"
        (((plOneInt.setScalar "k" (Scalar.i 1) none).setScalar "k" (Scalar.i 2) none).getOrderedNames)
        = List.indexOf "k" plOneInt.getOrderedNames :=
  set_set_preserves_position plOneInt "k" (Scalar.i 1) (Scalar.i 2) (by decide)

/-- C3: `set(k, v, c)` followed by `set(k, v2)` with no comment argument
leaves `getComment(k)` equal to `c`; moreover a `set` without a comment
argument never changes the comment map at all. -/
theorem set_without_comment_preserves_comment (pl : PropertyList) (k : String)
    (v v2 : Scalar) (c : String) :
    ((pl.setScalar k v (some c)).setScalar k v2 none).getComment k = .ok c ∧
    ∀ (q : PropertyList) (k2 : String) (w : Scalar),
      (q.setScalar k2 w none).comments = q.comments := by
  constructor
  · have hmem : k ∈ (pl.setScalar k v (some c)).order :=
      mem_setValues_order_self pl k [v] (some c)
    have h2 : ((pl.setScalar k v (some c)).setScalar k v2 none).order
        = (pl.setScalar k v (some c)).order :=
      setValues_order_of_mem _ hmem [v2] none
    have hmem2 : k ∈ ((pl.setScalar k v (some c)).setScalar k v2 none).order := by
      rw [h2]; exact hmem
    have hcm : ((pl.setScalar k v (some c)).setScalar k v2 none).comments
        = aset k c pl.comments := by
      simp [PropertyList.setScalar, PropertyList.setValues]
    simp [PropertyList.getComment, hmem2, hcm, alookup_aset_self]
  · intro q k2 w
    simp [PropertyList.setScalar, PropertyList.setValues]

/-- C5: after `remove(k)`, the key `k` is simultaneously absent from the
value store, from `getOrderedNames()`, and from the comment map, and
`getComment(k)` fails with `NotFound`. -/
theorem remove_atomic (pl : PropertyList) (k : String) :
    alookup k (pl.remove k).store = none ∧
    k ∉ (pl.remove k).getOrderedNames ∧
    alookup k (pl.remove k).comments = none ∧
    (pl.remove k).getComment k = .error .NotFound := by
  have horder : k ∉ (pl.remove k).order := by
    simp [PropertyList.remove, List.mem_filter]
  refine ⟨alookup_aremove_self k pl.store, ?_, alookup_aremove_self k pl.comments, ?_⟩
  · simpa [PropertyList.getOrderedNames] using horder
  · simp [PropertyList.getComment, horder]

/-- C8: the two-argument `get` returns the supplied default when the key is
absent, but still fails with `TypeMismatch` when the key is present with a
stored kind different from the requested one. -/
theorem get_default_spec (pl : PropertyList) (kd : Kind) (k : String) (d : Scalar) :
    (alookup k pl.store = none → pl.getD kd k d = .ok d) ∧
    (∀ vs v, alookup k pl.store = some vs → vs.getLast? = some v →
      v.kind ≠ kd → pl.getD kd k d = .error .TypeMismatch) := by
  constructor
  · intro h
    simp [PropertyList.getD, h]
  · intro vs v h1 h2 h3
    simp [PropertyList.getD, h1, h2, h3]

/-- Witness for C8: the default is returned for an absent key, and a
mismatched stored kind still fails. -/
theorem get_default_spec_witness :
    plOneStr.getD .kInt "absent" (Scalar.i 7) = .ok (Scalar.i 7) ∧
    plOneStr.getD .kInt "k" (Scalar.i 7) = .error .TypeMismatch := by
  constructor
  · exact (get_default_spec plOneStr .kInt "absent" (Scalar.i 7)).1 (by decide)
  · exact (get_default_spec plOneStr .kInt "k" (Scalar.i 7)).2 [Scalar.s "x"]
      (Scalar.s "x") (by decide) (by decide) (by decide)

/-- C9: `getArray` on a key holding a single scalar of the requested kind
returns the one-element sequence holding exactly that value, and on a key
holding an array of the requested kind returns the full array. -/
theorem getArray_scalar_and_array (pl : PropertyList) (kd : Kind) (k : String) :
    (∀ v, alookup k pl.store = some [v] → v.kind = kd →
      pl.getArray kd k = .ok [v]) ∧
    (∀ vs, alookup k pl.store = some vs → (∀ v ∈ vs, v.kind = kd) →
      pl.getArray kd k = .ok vs) := by
  constructor
  · intro v h1 h2
    simp [PropertyList.getArray, h1, h2]
  · intro vs h1 h2
    have hall : vs.all (fun v => v.kind == kd) = true := by
      rw [List.all_eq_true]
      intro v hv
      exact beq_iff_eq.mpr (h2 v hv)
    simp [PropertyList.getArray, h1, hall]

/-- Witness for C9: a scalar-valued key yields a one-element sequence, an
array-valued key yields the full array. -/
theorem getArray_scalar_and_array_witness :
    plScalarArr.getArray .kInt "k" = .ok [Scalar.i 5] ∧
    plScalarArr.getArray .kString "arr" = .ok [Scalar.s "g", Scalar.s "r"] := by
  constructor
  · exact (getArray_scalar_and_array plScalarArr .kInt "k").1 (Scalar.i 5)
      (by decide) (by decide)
  · exact (getArray_scalar_and_array plScalarArr .kString "arr").2
      [Scalar.s "g", Scalar.s "r"] (by decide) (by decide)

/-- C4: a comment supplied to `add` on an existing key replaces the stored
comment: `add(k, v1, c1)` then `add(k, v2, c2)` yields `getComment(k) = c2`
(assuming the key was coherent to begin with: absent from the store, or
present in the order list). -/
theorem add_comment_overwrite (pl pl1 pl2 : PropertyList) (k : String)
    (v1 v2 : Scalar) (c1 c2 : String)
    (h0 : alookup k pl.store = none ∨ k ∈ pl.order)
    (h1 : pl.addScalar k v1 (some c1) = .ok pl1)
    (h2 : pl1.addScalar k v2 (some c2) = .ok pl2) :
    pl2.getComment k = .ok c2 := by
  obtain ⟨f1c, f1o, f1n⟩ := addValues_ok_facts h1
  obtain ⟨f2c, f2o, f2n⟩ := addValues_ok_facts h2
  have hk1 : k ∈ pl1.order := by
    rcases h0 with h0 | h0
    · rw [f1n h0]
      simp
    · rcases f1o with e | e <;> rw [e] <;> simp [h0]
  have hk2 : k ∈ pl2.order := by
    rcases f2o with e | e <;> rw [e] <;> simp [hk1]
  have hcm : pl2.comments = aset k c2 pl1.comments := f2c
  simp [PropertyList.getComment, hk2, hcm, alookup_aset_self]

/-- Witness for C4 on concrete containers: two `add` calls with comments on
the same key leave the second comment. -/
theorem add_comment_overwrite_witness :
    plAfterAdd2.getComment "k" = .ok "c2" :=
  add_comment_overwrite emptyPL plAfterAdd1 plAfterAdd2 "k" (Scalar.i 1) (Scalar.i 2)
    "c1" "c2" (Or.inl (by decide)) (by rfl) (by rfl)

/-- During a run of fresh-key operations each single call appends its key:
a `set`/`add` whose key is absent both from the order list and the store
succeeds and appends the key at the end of the order, leaving the store
entries of every other key unchanged. -/
theorem applyOp_fresh {pl : PropertyList} {o : Op}
    (ho : o.key ∉ pl.order) (hs : alookup o.key pl.store = none) :
    ∃ pl1, applyOp pl o = .ok pl1 ∧
      pl1.order = pl.order ++ [o.key] ∧
      (∀ k2, k2 ≠ o.key → alookup k2 pl1.store = alookup k2 pl.store) := by
  cases o with
  | setOp k v c =>
      simp only [Op.key] at ho hs
      refine ⟨pl.setScalar k v c, rfl, ?_, ?_⟩
      · simp [PropertyList.setScalar, PropertyList.setValues, ho, Op.key]
      · intro k2 hne
        simp only [Op.key] at hne
        simp [PropertyList.setScalar, PropertyList.setValues,
          alookup_aset_ne (Ne.symm hne)]
  | addOp k v c =>
      simp only [Op.key] at ho hs
      have e : applyOp pl (.addOp k v c)
          = .ok { store := aset k [v] pl.store
                  order := pl.order ++ [k]
                  comments := match c with
                    | none => pl.comments
                    | some str => aset k str pl.comments } := by
        simp [applyOp, PropertyList.addScalar, PropertyList.addValues, hs]
      refine ⟨_, e, by simp [Op.key], ?_⟩
      intro k2 hne
      simp only [Op.key] at hne
      simp [alookup_aset_ne (Ne.symm hne)]

/-- C2: a sequence of `set`/`add` calls on distinct keys not previously
present succeeds, each call appends its key at the end of the order, and
`getOrderedNames()` afterwards is the previous order followed by exactly
those keys in insertion order (so from an empty container it is exactly the
keys in insertion order). -/
theorem new_keys_append_in_order (pl : PropertyList) (ops : List Op)
    (hnd : (ops.map Op.key).Nodup)
    (hfresh : ∀ o ∈ ops, o.key ∉ pl.order ∧ alookup o.key pl.store = none) :
    ∃ pl2, applyOps pl ops = .ok pl2 ∧
      pl2.getOrderedNames = pl.getOrderedNames ++ ops.map Op.key := by
  induction ops generalizing pl with
  | nil =>
      exact ⟨pl, rfl, by simp [PropertyList.getOrderedNames]⟩
  | cons o rest ih =>
      obtain ⟨ho, hs⟩ := hfresh o (by simp)
      obtain ⟨pl1, e1, e2, e3⟩ := applyOp_fresh ho hs
      simp only [List.map_cons, List.nodup_cons] at hnd
      have hfresh1 : ∀ o2 ∈ rest, o2.key ∉ pl1.order ∧ alookup o2.key pl1.store = none := by
        intro o2 hm
        have hne : o2.key ≠ o.key := by
          intro hh
          exact hnd.1 (hh ▸ List.mem_map_of_mem Op.key hm)
        constructor
        · rw [e2]
          simp only [List.mem_append, List.mem_singleton]
          push_neg
          exact ⟨(hfresh o2 (List.mem_cons_of_mem _ hm)).1, hne⟩
        · rw [e3 o2.key hne]
          exact (hfresh o2 (List.mem_cons_of_mem _ hm)).2
      obtain ⟨pl2, e4, e5⟩ := ih pl1 hnd.2 hfresh1
      refine ⟨pl2, ?_, ?_⟩
      · simp [applyOps, e1, e4]
      · rw [e5]
        simp [PropertyList.getOrderedNames, e2]

/-- Witness for C2: two fresh-key calls on the empty container produce
exactly the two keys in insertion order. -/
theorem new_keys_append_in_order_witness :
    ∃ pl2, applyOps emptyPL
        [Op.setOp "a" (Scalar.i 1) none, Op.addOp "b" (Scalar.s "x") (some "cb")]
        = .ok pl2 ∧
      pl2.getOrderedNames = emptyPL.getOrderedNames
        ++ ([Op.setOp "a" (Scalar.i 1) none,
             Op.addOp "b" (Scalar.s "x") (some "cb")].map Op.key) :=
  new_keys_append_in_order emptyPL
    [Op.setOp "a" (Scalar.i 1) none, Op.addOp "b" (Scalar.s "x") (some "cb")]
    (by decide) (by decide)

/-- C6: for a live container `A` (slot `i` of the heap), `deepCopy` returns
a distinct object `B` holding equal data, and any mutation of `B` leaves
`A`'s entire data (values, order, comments) unchanged, while any mutation of
`A` leaves `B`'s data unchanged. -/
theorem deepCopy_independence (h : Heap) (i : Nat) (hi : i < h.containers.length)
    (f g : PropertyList → PropertyList) :
    (h.deepCopy i).2 ≠ i ∧
    (h.deepCopy i).1.get (h.deepCopy i).2 = h.get i ∧
    ((h.deepCopy i).1.mutateAt (h.deepCopy i).2 f).get i = h.get i ∧
    ((h.deepCopy i).1.mutateAt i g).get (h.deepCopy i).2 = h.get i := by
  obtain ⟨l⟩ := h
  simp only [Heap.deepCopy, Heap.get, Heap.mutateAt] at *
  refine ⟨?_, ?_, ?_, ?_⟩
  · intro e
    rw [e] at hi
    exact lt_irrefl i hi
  · exact nthPL_append_length l (nthPL l i)
  · rw [setNth_append_length]
    exact nthPL_append_left l _ i hi
  · rw [setNth_append_left l _ i hi]
    have hlen : l.length = (setNth l i (g (nthPL (l ++ [nthPL l i]) i))).length :=
      (length_setNth l i _).symm
    rw [hlen, nthPL_append_length]

/-- Witness for C6 on a one-slot heap with a concrete mutation of each of
the copy and the original. -/
theorem deepCopy_independence_witness :
    (heapOne.deepCopy 0).2 ≠ 0 ∧
    (heapOne.deepCopy 0).1.get (heapOne.deepCopy 0).2 = heapOne.get 0 ∧
    ((heapOne.deepCopy 0).1.mutateAt (heapOne.deepCopy 0).2
        (fun p => p.setScalar "x" (Scalar.i 1) none)).get 0 = heapOne.get 0 ∧
    ((heapOne.deepCopy 0).1.mutateAt 0
        (fun p => p.remove "a")).get (heapOne.deepCopy 0).2 = heapOne.get 0 :=
  deepCopy_independence heapOne 0 (by decide)
    (fun p => p.setScalar "x" (Scalar.i 1) none) (fun p => p.remove "a")

/-! ### Lemmas about flattening -/

theorem prefKey_inj (root : String) {p q : String}
    (h : prefKey root p = prefKey root q) : p = q := by
  unfold prefKey at h
  have hd := congrArg String.data h
  simp only [String.data_append, List.append_assoc] at hd
  exact String.ext (List.append_cancel_left (List.append_cancel_left hd))

theorem prefKey_ne_root (root p : String) : prefKey root p ≠ root := by
  intro h
  have hd := congrArg String.data h
  simp only [prefKey, String.data_append, List.append_assoc] at hd
  have hlen := congrArg List.length hd
  have hdot : (String.data ".").length = 1 := rfl
  simp only [List.length_append, hdot] at hlen
  omega

theorem setPL_fold_spec (sub : PropertyList) (root : String) :
    ∀ l : List String, (l.map (prefKey root)).Nodup →
      (∀ p ∈ l, (alookup p sub.store).isSome = true) →
      ∀ acc : PropertyList,
      (∀ p ∈ l, prefKey root p ∉ acc.order ∧
          alookup (prefKey root p) acc.store = none ∧
          alookup (prefKey root p) acc.comments = none) →
      (flattenFold sub root l acc).order = acc.order ++ l.map (prefKey root) ∧
      (∀ p ∈ l, alookup (prefKey root p) (flattenFold sub root l acc).store
          = alookup p sub.store) ∧
      (∀ p ∈ l, alookup (prefKey root p) (flattenFold sub root l acc).comments
          = alookup p sub.comments) ∧
      (∀ k2, k2 ∉ l.map (prefKey root) →
          alookup k2 (flattenFold sub root l acc).store = alookup k2 acc.store ∧
          alookup k2 (flattenFold sub root l acc).comments = alookup k2 acc.comments) := by
  intro l
  induction l with
  | nil =>
      intro _ _ acc _
      refine ⟨by simp [flattenFold], by simp, by simp, fun k2 _ => ⟨rfl, rfl⟩⟩
  | cons p0 rest ih =>
      intro hnd hsub acc hfresh
      simp only [List.map_cons, List.nodup_cons] at hnd
      obtain ⟨hf0o, hf0s, hf0c⟩ := hfresh p0 (by simp)
      set acc1 := acc.setValues (prefKey root p0)
        ((alookup p0 sub.store).getD []) (alookup p0 sub.comments) with hacc1
      have hstep : flattenFold sub root (p0 :: rest) acc = flattenFold sub root rest acc1 := rfl
      have horder1 : acc1.order = acc.order ++ [prefKey root p0] := by
        simp [hacc1, PropertyList.setValues, hf0o]
      have hstore1self : alookup (prefKey root p0) acc1.store
          = some ((alookup p0 sub.store).getD []) := by
        simp [hacc1, PropertyList.setValues, alookup_aset_self]
      have hstore1ne : ∀ k2, k2 ≠ prefKey root p0 →
          alookup k2 acc1.store = alookup k2 acc.store := by
        intro k2 hne
        simp [hacc1, PropertyList.setValues, alookup_aset_ne (Ne.symm hne)]
      have hcomm1self : alookup (prefKey root p0) acc1.comments
          = alookup p0 sub.comments := by
        cases hc : alookup p0 sub.comments with
        | none => simp [hacc1, PropertyList.setValues, hc, hf0c]
        | some s2 => simp [hacc1, PropertyList.setValues, hc, alookup_aset_self]
      have hcomm1ne : ∀ k2, k2 ≠ prefKey root p0 →
          alookup k2 acc1.comments = alookup k2 acc.comments := by
        intro k2 hne
        cases hc : alookup p0 sub.comments with
        | none => simp [hacc1, PropertyList.setValues, hc]
        | some s2 => simp [hacc1, PropertyList.setValues, hc, alookup_aset_ne (Ne.symm hne)]
      have hfresh1 : ∀ p ∈ rest, prefKey root p ∉ acc1.order ∧
          alookup (prefKey root p) acc1.store = none ∧
          alookup (prefKey root p) acc1.comments = none := by
        intro p hp
        have hne : prefKey root p ≠ prefKey root p0 := by
          intro e
          exact hnd.1 (e ▸ List.mem_map_of_mem (prefKey root) hp)
        obtain ⟨ho, hs, hc⟩ := hfresh p (List.mem_cons_of_mem _ hp)
        refine ⟨?_, ?_, ?_⟩
        · rw [horder1]
          simp only [List.mem_append, List.mem_singleton]
          push_neg
          exact ⟨ho, hne⟩
        · rw [hstore1ne _ hne]
          exact hs
        · rw [hcomm1ne _ hne]
          exact hc
      obtain ⟨go, gs, gc, gother⟩ :=
        ih hnd.2 (fun p hp => hsub p (List.mem_cons_of_mem _ hp)) acc1 hfresh1
      have hp0not : prefKey root p0 ∉ rest.map (prefKey root) := hnd.1
      refine ⟨?_, ?_, ?_, ?_⟩
      · rw [hstep, go, horder1]
        simp [List.append_assoc]
      · intro p hp
        rcases List.mem_cons.mp hp with e | hp2
        · subst e
          rw [hstep, (gother _ hp0not).1, hstore1self]
          obtain ⟨v, hv⟩ := Option.isSome_iff_exists.mp (hsub p (by simp))
          rw [hv]
          rfl
        · rw [hstep]
          exact gs p hp2
      · intro p hp
        rcases List.mem_cons.mp hp with e | hp2
        · subst e
          rw [hstep, (gother _ hp0not).2, hcomm1self]
        · rw [hstep]
          exact gc p hp2
      · intro k2 hk2
        simp only [List.map_cons, List.mem_cons] at hk2
        push_neg at hk2
        rw [hstep]
        obtain ⟨g1, g2⟩ := gother k2 hk2.2
        exact ⟨g1.trans (hstore1ne k2 hk2.1), g2.trans (hcomm1ne k2 hk2.1)⟩

/-- C7, counterexample to the claim as stated: with a target container that
already holds the key `root.b`, inserting the nested container
`[a = 1 (comment ca), b = 2]` under `root` leaves `root.b` before `root.a`,
so `root.a` does not precede `root.b` and the nested container's relative
order `a` before `b` is not reproduced. -/
theorem setPropertyList_order_cex :
    (plTargetClash.setPropertyList "root" plNested).getOrderedNames
        = ["root.b", "root.a"] ∧
    ¬ List.indexOf "root.a"
          ((plTargetClash.setPropertyList "root" plNested).getOrderedNames)
        < List.indexOf "root.b"
          ((plTargetClash.setPropertyList "root" plNested).getOrderedNames) := by
  decide

/-- C7 (amended): provided none of the prefixed keys is already present in
the target container, `set(root, sub)` flattens `sub`: the order becomes the
target's names followed by `sub`'s keys prefixed with `root.` in `sub`'s own
order, each flattened entry holds `sub`'s values and keeps its own comment,
and the key `root` itself is not retained as an opaque value. -/
theorem setPropertyList_flattens (tgt sub : PropertyList) (root : String)
    (hnd : sub.order.Nodup)
    (hsub : ∀ p ∈ sub.order, (alookup p sub.store).isSome = true)
    (hfresh : ∀ p ∈ sub.order, prefKey root p ∉ tgt.order ∧
        alookup (prefKey root p) tgt.store = none ∧
        alookup (prefKey root p) tgt.comments = none) :
    (tgt.setPropertyList root sub).getOrderedNames
        = tgt.getOrderedNames ++ sub.order.map (prefKey root) ∧
    (∀ p ∈ sub.order, alookup (prefKey root p) (tgt.setPropertyList root sub).store
        = alookup p sub.store) ∧
    (∀ p ∈ sub.order, (tgt.setPropertyList root sub).getComment (prefKey root p)
        = sub.getComment p) ∧
    alookup root (tgt.setPropertyList root sub).store = alookup root tgt.store := by
  have hmapnd : (sub.order.map (prefKey root)).Nodup :=
    List.Nodup.map (fun a b e => prefKey_inj root e) hnd
  obtain ⟨go, gs, gc, gother⟩ := setPL_fold_spec sub root sub.order hmapnd hsub tgt hfresh
  have heq : tgt.setPropertyList root sub = flattenFold sub root sub.order tgt := rfl
  refine ⟨?_, ?_, ?_, ?_⟩
  · rw [PropertyList.getOrderedNames, PropertyList.getOrderedNames, heq]
    exact go
  · intro p hp
    rw [heq]
    exact gs p hp
  · intro p hp
    rw [heq]
    have hmem : prefKey root p ∈ (flattenFold sub root sub.order tgt).order := by
      rw [go]
      exact List.mem_append_right _ (List.mem_map_of_mem _ hp)
    rw [PropertyList.getComment, if_pos hmem, PropertyList.getComment, if_pos hp, gc p hp]
  · rw [heq]
    refine (gother root ?_).1
    intro hm
    obtain ⟨p, hp, e⟩ := List.mem_map.mp hm
    exact prefKey_ne_root root p e

/-- Witness for the amended C7 on a fresh (empty) target container. -/
theorem setPropertyList_flattens_witness :
    (emptyPL.setPropertyList "root" plNested).getOrderedNames
        = emptyPL.getOrderedNames ++ plNested.order.map (prefKey "root") ∧
    (∀ p ∈ plNested.order, alookup (prefKey "root" p)
        (emptyPL.setPropertyList "root" plNested).store = alookup p plNested.store) ∧
    (∀ p ∈ plNested.order, (emptyPL.setPropertyList "root" plNested).getComment
        (prefKey "root" p) = plNested.getComment p) ∧
    alookup "root" (emptyPL.setPropertyList "root" plNested).store
        = alookup "root" emptyPL.store :=
  setPropertyList_flattens emptyPL plNested "root" (by decide) (by decide) (by decide)

/-! ### Lemmas about `combine` -/

theorem addValues_ok_store_order {pl pl2 : PropertyList} {k : String}
    {vs : List Scalar} {c : Option String} (h : pl.addValues k vs c = .ok pl2) :
    alookup k pl2.store = some ((alookup k pl.store).getD [] ++ vs) ∧
    (∀ k2, k2 ≠ k → alookup k2 pl2.store = alookup k2 pl.store) ∧
    pl2.order = (if (alookup k pl.store).isSome = true then pl.order
                 else pl.order ++ [k]) := by
  unfold PropertyList.addValues at h
  cases hl : alookup k pl.store with
  | none =>
      simp only [hl, Except.ok.injEq] at h
      subst h
      refine ⟨by simp [alookup_aset_self], ?_, by simp⟩
      intro k2 hne
      simp [alookup_aset_ne (Ne.symm hne)]
  | some old =>
      by_cases hc : kindsCompat old vs
      · simp only [hl, hc, if_true, Except.ok.injEq] at h
        subst h
        refine ⟨by simp [alookup_aset_self], ?_, by simp⟩
        intro k2 hne
        simp [alookup_aset_ne (Ne.symm hne)]
      · simp [hl, hc] at h

theorem addValues_ok_coh {pl pl2 : PropertyList} {k : String} {vs : List Scalar}
    {c : Option String} (h : pl.addValues k vs c = .ok pl2) (hcoh : Coh pl) :
    Coh pl2 := by
  obtain ⟨h1, h2, h3⟩ := addValues_ok_store_order h
  intro k2
  by_cases hk : k2 = k
  · subst hk
    rw [h1, h3]
    simp only [Option.isSome_some, true_iff]
    by_cases hs : (alookup k2 pl.store).isSome = true
    · rw [if_pos hs]
      exact (hcoh k2).mp hs
    · rw [if_neg hs]
      simp
  · rw [h2 k2 hk, h3]
    by_cases hs : (alookup k pl.store).isSome = true
    · rw [if_pos hs]
      exact hcoh k2
    · rw [if_neg hs]
      simp [List.mem_append, hk, hcoh k2]

theorem combineList_spec (S : PropertyList) :
    ∀ l : List String, l.Nodup →
      (∀ p ∈ l, (alookup p S.store).isSome = true) →
      ∀ T T2 : PropertyList, Coh T → T.combineList S l = .ok T2 →
      T2.order = T.order ++ l.filter (fun p => decide (p ∉ T.order)) ∧
      (∀ p ∈ l, alookup p T2.store
          = some ((alookup p T.store).getD [] ++ (alookup p S.store).getD [])) ∧
      (∀ k2, k2 ∉ l → alookup k2 T2.store = alookup k2 T.store) ∧
      Coh T2 := by
  intro l
  induction l with
  | nil =>
      intro _ _ T T2 hcoh h
      simp only [PropertyList.combineList, Except.ok.injEq] at h
      subst h
      exact ⟨by simp, by simp, fun k2 _ => rfl, hcoh⟩
  | cons p0 rest ih =>
      intro hnd hs T T2 hcoh h
      simp only [List.nodup_cons] at hnd
      obtain ⟨vs0, hvs0⟩ := Option.isSome_iff_exists.mp (hs p0 (by simp))
      have hone : T.combineOne S p0 = T.addValues p0 vs0 (alookup p0 S.comments) := by
        simp [PropertyList.combineOne, hvs0]
      cases ha : T.addValues p0 vs0 (alookup p0 S.comments) with
      | error e =>
          simp only [PropertyList.combineList, hone, ha] at h
          cases h
      | ok T1 =>
          simp only [PropertyList.combineList, hone, ha] at h
          obtain ⟨a1, a2, a3⟩ := addValues_ok_store_order ha
          have hcoh1 : Coh T1 := addValues_ok_coh ha hcoh
          obtain ⟨g1, g2, g3, g4⟩ :=
            ih hnd.2 (fun p hp => hs p (List.mem_cons_of_mem _ hp)) T1 T2 hcoh1 h
          have hp0rest : p0 ∉ rest := hnd.1
          refine ⟨?_, ?_, ?_, g4⟩
          · by_cases hp0 : (alookup p0 T.store).isSome = true
            · have hp0mem : p0 ∈ T.order := (hcoh p0).mp hp0
              have e1 : T1.order = T.order := by rw [a3, if_pos hp0]
              rw [g1, e1]
              simp [List.filter_cons, hp0mem]
            · have hp0mem : p0 ∉ T.order := fun hm => hp0 ((hcoh p0).mpr hm)
              have e1 : T1.order = T.order ++ [p0] := by rw [a3, if_neg hp0]
              have hfc : rest.filter (fun p => decide (p ∉ T1.order))
                  = rest.filter (fun p => decide (p ∉ T.order)) := by
                refine List.filter_congr ?_
                intro p hp
                have hne : p ≠ p0 := fun e => hp0rest (e ▸ hp)
                rw [decide_eq_decide]
                rw [e1]
                simp [List.mem_append, hne]
              rw [g1, hfc, e1]
              simp [List.filter_cons, hp0mem, List.append_assoc]
          · intro p hp
            rcases List.mem_cons.mp hp with e | hp2
            · subst e
              rw [g3 p hp0rest, a1, hvs0]
              rfl
            · rw [g2 p hp2, a2 p (fun e => hp0rest (e ▸ hp2))]
          · intro k2 hk2
            simp only [List.mem_cons] at hk2
            push_neg at hk2
            rw [g3 k2 hk2.2, a2 k2 hk2.1]

/-- C10: merging an ordered source `S` into an ordered target `T` via
`combine` (when it succeeds) visits `S`'s entries in `S`'s own order, keeps
the relative order of `T`'s pre-existing keys unchanged (they remain an
unchanged prefix), appends the keys new to `T` after `T`'s existing order in
`S`'s order, and merges each entry with `add` semantics: the values of a
repeated key accumulate after the target's existing values rather than
overwrite them. -/
theorem combine_ordered_spec (T S T2 : PropertyList)
    (hndS : S.order.Nodup)
    (hS : ∀ p ∈ S.order, (alookup p S.store).isSome = true)
    (hTa : ∀ k ∈ akeys T.store, k ∈ T.order)
    (hTb : ∀ k ∈ T.order, k ∈ akeys T.store)
    (hc : T.combine S = .ok T2) :
    T2.getOrderedNames = T.getOrderedNames
        ++ S.order.filter (fun p => decide (p ∉ T.order)) ∧
    (∀ p ∈ S.order, ∀ vs, alookup p S.store = some vs →
        alookup p T2.store = some ((alookup p T.store).getD [] ++ vs)) := by
  have hcoh : Coh T := by
    intro k
    rw [isSome_alookup_iff_mem_akeys]
    exact ⟨fun hm => hTa k hm, fun hm => hTb k hm⟩
  obtain ⟨g1, g2, g3, g4⟩ := combineList_spec S S.order hndS hS T T2 hcoh hc
  refine ⟨g1, ?_⟩
  intro p hp vs hvs
  rw [g2 p hp, hvs]
  simp

/-- Witness for C10 on concrete containers: merging source `[q, r]` into
target `[p, q]` yields order `[p, q, r]` with `q`'s values accumulated. -/
theorem combine_ordered_spec_witness :
    plCombined.getOrderedNames = plTgtPQ.getOrderedNames
        ++ plSrcQR.order.filter (fun p => decide (p ∉ plTgtPQ.order)) ∧
    (∀ p ∈ plSrcQR.order, ∀ vs, alookup p plSrcQR.store = some vs →
        alookup p plCombined.store
          = some ((alookup p plTgtPQ.store).getD [] ++ vs)) :=
  combine_ordered_spec plTgtPQ plSrcQR plCombined (by decide) (by decide)
    (by decide) (by decide) (by rfl)

end DafBase
